import Mathlib

/-!
Verification development for the APR-matrix application (file
src/streamlit_app.py).  The core under study is

  * normalize               (lines 105-133): raw products to matrix
  * http_get_any            (lines 39-52):   endpoint rotation
  * fetch_products_all_direct (lines 62-91): timestamped pagination

Numeric values transported as Python floats are modelled as rationals;
the JSON wire format carries decimal literals, which embed exactly into
the rationals.  An untrusted Python value is modelled by the outcome of
the only three conversions the code applies to it: float(v), int(v) and
str(v), each of which either yields a result or raises.
-/

namespace App

/-- Model of an untrusted Python value as the outcomes of the three
conversions used by normalize.  A field of `none` means the conversion
raises for this value. -/
structure PyVal where
  asFloat : Option ℚ
  asInt : Option ℤ
  asStr : Option String
deriving DecidableEq

/-- The Python int 0, used by the source as the default of dict.get. -/
def pyZero : PyVal := ⟨some 0, some 0, some "0"⟩

/-- Model of one raw product record.  `notObj` is a value for which
subscripting raises (a record that is not a mapping); `obj` carries the
four fields the code reads, each possibly absent. -/
inductive PyItem where
  | notObj : PyItem
  | obj (apr strikePrice duration id : Option PyVal) : PyItem
deriving DecidableEq

/-- Round-half-even of a rational to an integer, the rounding rule of
the Python built-in round. -/
def roundHalfEven (q : ℚ) : ℤ :=
  if q - ⌊q⌋ < 1/2 then ⌊q⌋
  else if 1/2 < q - ⌊q⌋ then ⌊q⌋ + 1
  else if ⌊q⌋ % 2 = 0 then ⌊q⌋ else ⌊q⌋ + 1

/-- Model of the Python round(q, prec) on the rationals. -/
def pyRound (prec : ℕ) (q : ℚ) : ℚ :=
  (roundHalfEven (q * 10 ^ prec) : ℚ) / 10 ^ prec

/-- Lookup in an insertion-ordered association list, the model of a
Python dict. -/
def lookupKey {K V : Type} [DecidableEq K] : List (K × V) → K → Option V
  | [], _ => none
  | (k', v') :: rest, k => if k' = k then some v' else lookupKey rest k

/-- Assignment d[k] = v on an insertion-ordered association list:
replace in place when the key is present, append otherwise. -/
def insertKey {K V : Type} [DecidableEq K] : List (K × V) → K → V → List (K × V)
  | [], k, v => [(k, v)]
  | (k', v') :: rest, k, v =>
      if k' = k then (k', v) :: rest else (k', v') :: insertKey rest k v

/-- Insertion into a Python set, modelled as a duplicate-free list.  A
Python set is unordered; the code only tests membership and sorts the
set, both of which are insensitive to the order of this list. -/
def insertSet {α : Type} [DecidableEq α] (l : List α) (a : α) : List α :=
  if a ∈ l then l else l ++ [a]

/-- State of the accumulation loop of normalize (lines 110-125): the
dict mp plus the two observation sets. -/
structure NormState where
  mp : List ((ℚ × ℤ) × (ℚ × String))
  strikes_set : List ℚ
  days_set : List ℤ
deriving DecidableEq

/-- Per-record parsing and filtering, lines 113-118 of the source: the
try-block up to the key construction.  Returns none exactly when the
record is skipped there (a raised conversion, a missing apr key, or an
apr below the threshold); otherwise returns the key together with the
unrounded apr percentage and the product id. -/
def itemEntry (min_apr_pct : ℚ) (strike_prec : ℕ) : PyItem → Option ((ℚ × ℤ) × ℚ × String)
  | .notObj => none
  | .obj apr? strk? dur? id? => do
      let av ← apr?
      let a0 ← av.asFloat
      let apr := a0 * 100
      if apr < min_apr_pct then none
      else do
        let s0 ← (strk?.getD pyZero).asFloat
        let strike := pyRound strike_prec s0
        let d ← (dur?.getD pyZero).asInt
        let pid ← match id? with
          | some v => v.asStr
          | none => some "n/a"
        some ((strike, d), apr, pid)

/-- Lines 119-123 of the source: keep the cell when the key is new or
the new unrounded apr strictly exceeds the stored rounded apr. -/
def updateMp (st : NormState) (key : ℚ × ℤ) (apr : ℚ) (pid : String) : NormState :=
  match lookupKey st.mp key with
  | some prev =>
      if apr > prev.1 then
        ⟨insertKey st.mp key (pyRound 2 apr, pid),
         insertSet st.strikes_set key.1, insertSet st.days_set key.2⟩
      else st
  | none =>
      ⟨insertKey st.mp key (pyRound 2 apr, pid),
       insertSet st.strikes_set key.1, insertSet st.days_set key.2⟩

/-- One iteration of the for-loop of normalize: a record that fails
parsing or the threshold contributes nothing (the continue branches and
the per-record exception handler), otherwise the state is updated. -/
def step (min_apr_pct : ℚ) (strike_prec : ℕ) (st : NormState) (it : PyItem) : NormState :=
  match itemEntry min_apr_pct strike_prec it with
  | none => st
  | some (key, apr, pid) => updateMp st key apr pid

/-- State after the whole accumulation loop of normalize. -/
def normState (items : List PyItem) (min_apr_pct : ℚ) (strike_prec : ℕ) : NormState :=
  items.foldl (step min_apr_pct strike_prec) ⟨[], [], []⟩

/-- Python max(values, default=0): the maximum of a list, 0 for the
empty list. -/
def listMaxD : List ℚ → ℚ
  | [] => 0
  | x :: xs => xs.foldl max x

/-- Result structure of normalize: the four keys strikes, days, cells
and max_apr.  The nested string-keyed cell dicts of the source are
modelled as a key-value list over the (strike, duration) pairs; str is
injective on the distinct numeric keys involved. -/
structure Matrix where
  strikes : List ℚ
  days : List ℤ
  cells : List ((ℚ × ℤ) × (ℚ × String))
  max_apr : ℚ
deriving DecidableEq

/-- Embedding of normalize (lines 105-133 of the source). -/
def normalize (items : List PyItem) (min_apr_pct : ℚ) (duration_set : List ℤ)
    (max_strikes : ℕ) (strike_prec : ℕ := 2) : Matrix :=
  let st := normState items min_apr_pct strike_prec
  let strikes := ((List.insertionSort (· ≤ ·) st.strikes_set).reverse).take max_strikes
  let days := List.insertionSort (· ≤ ·)
      ((if duration_set.isEmpty then List.insertionSort (· ≤ ·) st.days_set else duration_set).filter
        (fun d => duration_set.isEmpty || decide (d ∈ st.days_set)))
  let max_apr := listMaxD (st.mp.map (fun kv => kv.2.1))
  let cells := st.mp.filter (fun kv => decide (kv.1.1 ∈ strikes) && decide (kv.1.2 ∈ days))
  ⟨strikes, days, cells, max_apr⟩

/-! Endpoint rotator, lines 39-52 of the source.  The urllib layer is
abstracted into a network oracle mapping a full URL to the pair of HTTP
status code and decoded body that http_get (lines 28-37) returns. -/

/-- Substring test, the model of the Python expression needle in hay. -/
def strContains (hay needle : String) : Bool :=
  decide (needle.toList <:+: hay.toList)

/-- Acceptance test of the rotator, lines 47-49: a 2xx status whose
body carries no restricted-location marker. -/
def acceptResp (code : ℤ) (txt : String) : Bool :=
  let restricted := (code == 451) || strContains txt "Eligibility"
    || strContains txt "restricted location"
  decide (200 ≤ code) && decide (code < 300) && !restricted

/-- Failure line recorded at line 51: the base, the status and the body
truncated to 160 characters with newlines replaced by spaces. -/
def failLine (base : String) (code : ℤ) (txt : String) : String :=
  base ++ " → HTTP " ++ toString code ++ "; "
    ++ String.mk ((txt.toList.take 160).map (fun c => if c = '\n' then ' ' else c))

/-- Embedding of http_get_any (lines 39-52): try each base in order,
return the first accepted response, raise the last failure line when
all bases are exhausted.  The second component is the list of bases a
request was actually issued to. -/
def http_get_any (net : String → ℤ × String) (path_with_query : String) :
    List String → Option String → Except String (String × ℤ × String) × List String
  | [], last => (.error (last.getD "All Binance endpoints failed"), [])
  | base :: rest, _last =>
      let resp := net (base ++ path_with_query)
      if acceptResp resp.1 resp.2 then
        (.ok (base, resp.1, resp.2), [base])
      else
        let r := http_get_any net path_with_query rest
          (some (failLine base resp.1 resp.2))
        (r.1, base :: r.2)

/-! Product fetcher, lines 62-91 of the source.  The transport stack of
one page request (sign_params, http_get_any and the JSON decoding of
the response) is abstracted into an oracle from the signed request
parameters to the status code and the decoded page of items; the time
request of line 64 is likewise abstracted into the status code and the
decoded serverTime field. -/

/-- Signed query parameters of one page request, line 72-80. -/
structure PageReq where
  optionType : String
  exercisedCoin : String
  investCoin : String
  pageSize : ℕ
  pageIndex : ℕ
  timestamp : ℤ
  recvWindow : ℕ
deriving DecidableEq

/-- Page loop of fetch_products_all_direct (lines 69-91), written
without the mutable accumulator: the returned pair is the accumulated
item list and the trace of issued page requests.  The first argument of
the recursion is the number of page indices still allowed by the cap,
the second the next page index. -/
def fetchPages {α : Type} (pageNet : PageReq → ℤ × List α)
    (option_type exercised invest : String) (ts : ℤ) :
    ℕ → ℕ → Except String (List α × List PageReq)
  | 0, _ => .ok ([], [])
  | n + 1, idx =>
      let p : PageReq := ⟨option_type, exercised, invest, 100, idx, ts, 60000⟩
      let resp := pageNet p
      if resp.1 ≠ 200 then .error ("HTTP " ++ toString resp.1)
      else if resp.2.length < 100 then .ok (resp.2, [p])
      else
        match fetchPages pageNet option_type exercised invest ts n (idx + 1) with
        | .error e => .error e
        | .ok (out, reqs) => .ok (resp.2 ++ out, p :: reqs)

/-- Embedding of fetch_products_all_direct (lines 62-91): one time
request, then up to pages signed page requests sharing that timestamp. -/
def fetch_products_all_direct {α : Type} (timeResp : ℤ × ℤ)
    (pageNet : PageReq → ℤ × List α)
    (option_type exercised invest : String) (pages : ℕ := 3) :
    Except String (List α × List PageReq) :=
  if timeResp.1 ≠ 200 then .error ("time error: " ++ toString timeResp.1)
  else fetchPages pageNet option_type exercised invest timeResp.2 pages 1

/-! Arithmetic facts about the rounding model. -/

theorem roundHalfEven_floor_le (q : ℚ) : ⌊q⌋ ≤ roundHalfEven q := by
  unfold roundHalfEven; split_ifs <;> omega

theorem roundHalfEven_le_floor_add_one (q : ℚ) : roundHalfEven q ≤ ⌊q⌋ + 1 := by
  unfold roundHalfEven; split_ifs <;> omega

theorem roundHalfEven_intCast (n : ℤ) : roundHalfEven (n : ℚ) = n := by
  norm_num [roundHalfEven]

theorem roundHalfEven_mono {x y : ℚ} (h : x ≤ y) : roundHalfEven x ≤ roundHalfEven y := by
  rcases lt_or_le ⌊x⌋ ⌊y⌋ with hf | hf
  · have h1 := roundHalfEven_le_floor_add_one x
    have h2 := roundHalfEven_floor_le y
    omega
  · have hf' : ⌊x⌋ = ⌊y⌋ := le_antisymm (Int.floor_le_floor h) hf
    unfold roundHalfEven
    rw [hf']
    split_ifs <;> first | omega | (exfalso; linarith)

theorem roundHalfEven_ge (q : ℚ) : q - 1/2 ≤ (roundHalfEven q : ℚ) := by
  have hfl := Int.floor_le q
  have hfu := Int.lt_floor_add_one q
  unfold roundHalfEven
  split_ifs with h1 h2 h3 <;> push_cast <;> linarith

theorem pyRound_mono (p : ℕ) {x y : ℚ} (h : x ≤ y) : pyRound p x ≤ pyRound p y := by
  unfold pyRound
  have h10 : (0 : ℚ) < 10 ^ p := by positivity
  have hm := roundHalfEven_mono (mul_le_mul_of_nonneg_right h (le_of_lt h10))
  exact (div_le_div_iff_of_pos_right h10).mpr (Int.cast_le.mpr hm)

theorem pyRound_eq_self {p : ℕ} {q : ℚ} (n : ℤ) (h : q * 10 ^ p = (n : ℚ)) :
    pyRound p q = q := by
  have h10 : (10 : ℚ) ^ p ≠ 0 := by positivity
  unfold pyRound
  rw [h, roundHalfEven_intCast, ← h, mul_div_assoc, div_self h10, mul_one]

theorem pyRound_mul_int (p : ℕ) (q : ℚ) :
    ∃ n : ℤ, pyRound p q * 10 ^ p = (n : ℚ) := by
  refine ⟨roundHalfEven (q * 10 ^ p), ?_⟩
  have h10 : (10 : ℚ) ^ p ≠ 0 := by positivity
  unfold pyRound
  rw [div_mul_cancel₀ _ h10]

theorem pyRound_idem (p : ℕ) (q : ℚ) : pyRound p (pyRound p q) = pyRound p q := by
  obtain ⟨n, hn⟩ := pyRound_mul_int p q
  exact pyRound_eq_self n hn

theorem pyRound_max (p : ℕ) (a b : ℚ) :
    pyRound p (max a b) = max (pyRound p a) (pyRound p b) := by
  rcases le_total a b with h | h
  · rw [max_eq_right h, max_eq_right (pyRound_mono p h)]
  · rw [max_eq_left h, max_eq_left (pyRound_mono p h)]

/-! Dictionary and set lemmas. -/

theorem lookupKey_insertKey_self {K V : Type} [DecidableEq K] (l : List (K × V)) (k : K) (v : V) :
    lookupKey (insertKey l k v) k = some v := by
  induction l with
  | nil => simp [insertKey, lookupKey]
  | cons hd tl ih =>
      obtain ⟨k', v'⟩ := hd
      by_cases h : k' = k
      · simp [insertKey, h, lookupKey]
      · simp [insertKey, h, lookupKey, ih]

theorem lookupKey_insertKey_ne {K V : Type} [DecidableEq K] (l : List (K × V)) {k k' : K}
    (v : V) (h : k ≠ k') : lookupKey (insertKey l k v) k' = lookupKey l k' := by
  induction l with
  | nil => simp [insertKey, lookupKey, h]
  | cons hd tl ih =>
      obtain ⟨k₀, v₀⟩ := hd
      by_cases h0 : k₀ = k
      · subst h0
        simp [insertKey, lookupKey, h]
      · simp [insertKey, h0, lookupKey, ih]

theorem mem_insertKey {K V : Type} [DecidableEq K] {l : List (K × V)} {k : K} {v : V}
    {kv : K × V} (h : kv ∈ insertKey l k v) : kv = (k, v) ∨ kv ∈ l := by
  induction l with
  | nil => simpa [insertKey] using h
  | cons hd tl ih =>
      obtain ⟨k₀, v₀⟩ := hd
      by_cases h0 : k₀ = k
      · subst h0
        rcases (by simpa [insertKey] using h : kv = (k₀, v) ∨ kv ∈ tl) with h1 | h1
        · exact Or.inl h1
        · exact Or.inr (List.mem_cons_of_mem _ h1)
      · rcases (by simpa [insertKey, h0] using h : kv = (k₀, v₀) ∨ kv ∈ insertKey tl k v) with h1 | h1
        · exact Or.inr (by simp [h1])
        · rcases ih h1 with h2 | h2
          · exact Or.inl h2
          · exact Or.inr (List.mem_cons_of_mem _ h2)

theorem lookupKey_eq_none_iff {K V : Type} [DecidableEq K] (l : List (K × V)) (k : K) :
    lookupKey l k = none ↔ k ∉ l.map Prod.fst := by
  induction l with
  | nil => simp [lookupKey]
  | cons hd tl ih =>
      obtain ⟨k₀, v₀⟩ := hd
      by_cases h0 : k₀ = k
      · simp [lookupKey, h0]
      · simp [lookupKey, h0, ih, Ne.symm h0]

theorem lookupKey_mem {K V : Type} [DecidableEq K] {l : List (K × V)} {k : K} {v : V}
    (h : lookupKey l k = some v) : (k, v) ∈ l := by
  induction l with
  | nil => simp [lookupKey] at h
  | cons hd tl ih =>
      obtain ⟨k₀, v₀⟩ := hd
      by_cases h0 : k₀ = k
      · subst h0
        simp [lookupKey] at h
        simp [h]
      · simp only [lookupKey, if_neg h0] at h
        exact List.mem_cons_of_mem _ (ih h)

theorem keys_insertKey_of_mem {K V : Type} [DecidableEq K] {l : List (K × V)} {k : K}
    (v : V) (h : k ∈ l.map Prod.fst) :
    (insertKey l k v).map Prod.fst = l.map Prod.fst := by
  induction l with
  | nil => simp at h
  | cons hd tl ih =>
      obtain ⟨k₀, v₀⟩ := hd
      by_cases h0 : k₀ = k
      · simp [insertKey, h0]
      · have htl : k ∈ tl.map Prod.fst := by
          rcases (by simpa using h) with h1 | h1
          · exact absurd h1.symm h0
          · simpa using h1
        simp [insertKey, h0, ih htl]

theorem keys_insertKey_of_not_mem {K V : Type} [DecidableEq K] {l : List (K × V)} {k : K}
    (v : V) (h : k ∉ l.map Prod.fst) :
    (insertKey l k v).map Prod.fst = l.map Prod.fst ++ [k] := by
  induction l with
  | nil => simp [insertKey]
  | cons hd tl ih =>
      obtain ⟨k₀, v₀⟩ := hd
      have h0 : k₀ ≠ k := by
        intro hk
        exact h (by simp [hk])
      have htl : k ∉ tl.map Prod.fst := by
        intro hk
        exact h (by simp [hk])
      simp [insertKey, h0, ih htl]

theorem mem_insertSet {α : Type} [DecidableEq α] {l : List α} {a b : α} :
    b ∈ insertSet l a ↔ b = a ∨ b ∈ l := by
  unfold insertSet
  split_ifs with h
  · exact ⟨Or.inr, fun hb => hb.elim (fun hba => hba ▸ h) id⟩
  · simp [List.mem_append, or_comm]

theorem insertSet_of_mem {α : Type} [DecidableEq α] {l : List α} {a : α} (h : a ∈ l) :
    insertSet l a = l := by
  simp [insertSet, h]

theorem nodup_insertSet {α : Type} [DecidableEq α] {l : List α} {a : α} (h : l.Nodup) :
    (insertSet l a).Nodup := by
  unfold insertSet
  split_ifs with hm
  · exact h
  · simp [List.nodup_append, h, hm]

/-! Invariant tying the two observation sets of the loop state to the
keys of the dict. -/

/-- The observation sets hold exactly the strike and duration
components of the dict keys, without duplicates, and the dict keys are
distinct. -/
def goodState (st : NormState) : Prop :=
  (∀ s, s ∈ st.strikes_set ↔ s ∈ st.mp.map (fun kv => kv.1.1)) ∧
  (∀ d, d ∈ st.days_set ↔ d ∈ st.mp.map (fun kv => kv.1.2)) ∧
  st.strikes_set.Nodup ∧ st.days_set.Nodup ∧ (st.mp.map Prod.fst).Nodup

theorem goodState_updateMp {st : NormState} (h : goodState st) (k : ℚ × ℤ) (a : ℚ)
    (p : String) : goodState (updateMp st k a p) := by
  obtain ⟨hs, hd, hsn, hdn, hkn⟩ := h
  unfold updateMp
  cases hl : lookupKey st.mp k with
  | some prev =>
      have hkm : k ∈ st.mp.map Prod.fst := by
        simpa using List.mem_map_of_mem Prod.fst (lookupKey_mem hl)
      have hkeys := keys_insertKey_of_mem (V := ℚ × String) (pyRound 2 a, p) hkm
      have hs1 : k.1 ∈ st.strikes_set := (hs k.1).mpr (by
        simpa using List.mem_map_of_mem (fun kv => kv.1.1) (lookupKey_mem hl))
      have hd1 : k.2 ∈ st.days_set := (hd k.2).mpr (by
        simpa using List.mem_map_of_mem (fun kv => kv.1.2) (lookupKey_mem hl))
      dsimp only
      split_ifs with hgt
      · refine ⟨?_, ?_, ?_, ?_, ?_⟩
        · intro s
          rw [insertSet_of_mem hs1, hs s]
          have : (insertKey st.mp k (pyRound 2 a, p)).map (fun kv => kv.1.1)
              = (st.mp.map Prod.fst).map Prod.fst := by
            rw [← hkeys]; simp [Function.comp]
          simp only [this]
          simp [List.map_map, Function.comp]
        · intro d
          rw [insertSet_of_mem hd1, hd d]
          have : (insertKey st.mp k (pyRound 2 a, p)).map (fun kv => kv.1.2)
              = (st.mp.map Prod.fst).map Prod.snd := by
            rw [← hkeys]; simp [Function.comp]
          simp only [this]
          simp [List.map_map, Function.comp]
        · rw [insertSet_of_mem hs1]; exact hsn
        · rw [insertSet_of_mem hd1]; exact hdn
        · rw [hkeys]; exact hkn
      · exact ⟨hs, hd, hsn, hdn, hkn⟩
  | none =>
      have hkm : k ∉ st.mp.map Prod.fst := (lookupKey_eq_none_iff _ _).mp hl
      have hkeys := keys_insertKey_of_not_mem (V := ℚ × String) (pyRound 2 a, p) hkm
      dsimp only
      refine ⟨?_, ?_, ?_, ?_, ?_⟩
      · intro s
        rw [mem_insertSet, hs s]
        have : (insertKey st.mp k (pyRound 2 a, p)).map (fun kv => kv.1.1)
            = (st.mp.map Prod.fst ++ [k]).map Prod.fst := by
          rw [← hkeys]; simp [Function.comp]
        simp only [this]
        simp [List.map_map, Function.comp, or_comm]
      · intro d
        rw [mem_insertSet, hd d]
        have : (insertKey st.mp k (pyRound 2 a, p)).map (fun kv => kv.1.2)
            = (st.mp.map Prod.fst ++ [k]).map Prod.snd := by
          rw [← hkeys]; simp [Function.comp]
        simp only [this]
        simp [List.map_map, Function.comp, or_comm]
      · refine nodup_insertSet hsn
      · refine nodup_insertSet hdn
      · rw [hkeys]
        simp [List.nodup_append, hkn, hkm]

theorem goodState_normState (items : List PyItem) (μ : ℚ) (p : ℕ) :
    goodState (normState items μ p) := by
  have base : goodState ⟨[], [], []⟩ := by
    refine ⟨by simp, by simp, by simp, by simp, by simp⟩
  unfold normState
  generalize hst : (⟨[], [], []⟩ : NormState) = st0
  rw [hst] at base
  clear hst
  induction items generalizing st0 with
  | nil => simpa using base
  | cons it items ih =>
      simp only [List.foldl_cons]
      refine ih _ ?_
      unfold step
      cases itemEntry μ p it with
      | none => exact base
      | some e => exact goodState_updateMp base e.1 e.2.1 e.2.2

theorem pyRound_two_ge (q : ℚ) : q - 1/200 ≤ pyRound 2 q := by
  have hr := roundHalfEven_ge (q * 10 ^ 2)
  have h10 : (0 : ℚ) < 10 ^ 2 := by positivity
  unfold pyRound
  rw [le_div_iff₀ h10]
  norm_num at hr ⊢
  linarith

/-! Per-key projection of the accumulation loop. -/

/-- The update of one parsed record, curried over the projected entry. -/
def upd1 (st : NormState) (e : (ℚ × ℤ) × ℚ × String) : NormState :=
  updateMp st e.1 e.2.1 e.2.2

/-- Effect of one parsed record on the cell stored under its own key:
first write installs the rounded apr, a later write needs a strictly
greater unrounded apr than the stored rounded value. -/
def keep1 (acc : Option (ℚ × String)) (e : ℚ × String) : Option (ℚ × String) :=
  match acc with
  | none => some (pyRound 2 e.1, e.2)
  | some pr => if e.1 > pr.1 then some (pyRound 2 e.1, e.2) else some pr

theorem foldl_step_eq (μ : ℚ) (p : ℕ) :
    ∀ (items : List PyItem) (st : NormState),
      items.foldl (step μ p) st = (items.filterMap (itemEntry μ p)).foldl upd1 st := by
  intro items
  induction items with
  | nil => intro st; rfl
  | cons it items ih =>
      intro st
      simp only [List.foldl_cons, List.filterMap_cons]
      cases h : itemEntry μ p it with
      | none => simp only [step, h]; exact ih st
      | some e =>
          obtain ⟨k, a, pid⟩ := e
          simp only [step, h, List.foldl_cons]
          exact ih _

theorem lookupKey_updateMp_self (st : NormState) (k : ℚ × ℤ) (pr : ℚ × String) :
    lookupKey (updateMp st k pr.1 pr.2).mp k = keep1 (lookupKey st.mp k) pr := by
  unfold updateMp keep1
  cases h : lookupKey st.mp k with
  | none => simp [lookupKey_insertKey_self]
  | some prev =>
      dsimp only
      split_ifs with hgt
      · simp [lookupKey_insertKey_self]
      · exact h

theorem lookupKey_updateMp_ne (st : NormState) {k k' : ℚ × ℤ} (a : ℚ) (p : String)
    (h : k ≠ k') : lookupKey (updateMp st k a p).mp k' = lookupKey st.mp k' := by
  unfold updateMp
  cases hl : lookupKey st.mp k with
  | none => exact lookupKey_insertKey_ne _ _ h
  | some prev =>
      dsimp only
      split_ifs with hgt
      · exact lookupKey_insertKey_ne _ _ h
      · rfl

theorem foldl_upd1_lookup :
    ∀ (es : List ((ℚ × ℤ) × ℚ × String)) (st : NormState) (k : ℚ × ℤ),
      lookupKey ((es.foldl upd1 st).mp) k
        = ((es.filter (fun e => decide (e.1 = k))).map (fun e => e.2)).foldl keep1
            (lookupKey st.mp k) := by
  intro es
  induction es with
  | nil => intro st k; rfl
  | cons e es ih =>
      intro st k
      have hlk : lookupKey (upd1 st e).mp k
          = if e.1 = k then keep1 (lookupKey st.mp k) e.2 else lookupKey st.mp k := by
        unfold upd1
        split_ifs with he
        · rw [← he]
          exact lookupKey_updateMp_self st e.1 e.2
        · exact lookupKey_updateMp_ne _ _ _ he
      by_cases he : e.1 = k
      · have hfe : List.filter (fun e => decide (e.1 = k)) (e :: es)
            = e :: List.filter (fun e => decide (e.1 = k)) es := by
          simp [List.filter_cons, he]
        simp only [List.foldl_cons, hfe, List.map_cons, List.foldl_cons]
        rw [ih, hlk, if_pos he]
      · have hfe : List.filter (fun e => decide (e.1 = k)) (e :: es)
            = List.filter (fun e => decide (e.1 = k)) es := by
          simp [List.filter_cons, he]
        simp only [List.foldl_cons, hfe]
        rw [ih, hlk, if_neg he]

/-! Maximum folds. -/

theorem foldl_max_comm (l : List (ℚ × String)) :
    ∀ x y : ℚ, l.foldl (fun m e => max m e.1) (max x y)
      = max (l.foldl (fun m e => max m e.1) x) y := by
  induction l with
  | nil => intro x y; rfl
  | cons e l ih =>
      intro x y
      simp only [List.foldl_cons]
      rw [sup_right_comm, ih]

theorem le_foldl_max (l : List (ℚ × String)) (x : ℚ) :
    x ≤ l.foldl (fun m e => max m e.1) x := by
  induction l generalizing x with
  | nil => exact le_refl x
  | cons e l ih =>
      simp only [List.foldl_cons]
      exact le_trans (le_max_left x e.1) (ih _)

theorem foldl_max_map (l : List (ℚ × String)) (x : ℚ) :
    (l.map Prod.fst).foldl max x = l.foldl (fun m e => max m e.1) x := by
  induction l generalizing x with
  | nil => rfl
  | cons e l ih => simp only [List.map_cons, List.foldl_cons, ih]

/-- Main invariant of the per-key overwrite chain: starting from a
stored rounded value, the chain ends at the rounding of the running
maximum, and the stored id belongs to the start or to some list element
whose apr rounds to that same value. -/
theorem keep1_foldl_spec :
    ∀ (l : List (ℚ × String)) (w : ℚ) (p : String),
      ∃ p', l.foldl keep1 (some (pyRound 2 w, p))
          = some (pyRound 2 (l.foldl (fun m e => max m e.1) w), p')
        ∧ ((p' = p ∧ pyRound 2 (l.foldl (fun m e => max m e.1) w) = pyRound 2 w)
           ∨ ∃ e ∈ l, p' = e.2
               ∧ pyRound 2 (l.foldl (fun m e => max m e.1) w) = pyRound 2 e.1) := by
  intro l
  induction l with
  | nil =>
      intro w p
      exact ⟨p, rfl, Or.inl ⟨rfl, rfl⟩⟩
  | cons e l ih =>
      intro w p
      obtain ⟨a, q⟩ := e
      simp only [List.foldl_cons]
      by_cases hgt : a > pyRound 2 w
      · have hround : pyRound 2 (l.foldl (fun m e => max m e.1) (max w a))
            = pyRound 2 (l.foldl (fun m e => max m e.1) a) := by
          rw [max_comm w a, foldl_max_comm, pyRound_max]
          have h1 : pyRound 2 w ≤ pyRound 2 a := by
            calc pyRound 2 w = pyRound 2 (pyRound 2 w) := (pyRound_idem 2 w).symm
              _ ≤ pyRound 2 a := pyRound_mono 2 (le_of_lt hgt)
          have h2 : pyRound 2 a ≤ pyRound 2 (l.foldl (fun m e => max m e.1) a) :=
            pyRound_mono 2 (le_foldl_max l a)
          exact max_eq_left (le_trans h1 h2)
        have hstep : keep1 (some (pyRound 2 w, p)) (a, q) = some (pyRound 2 a, q) := by
          simp [keep1, hgt]
        rw [hstep, hround]
        obtain ⟨p', hfold, hcase⟩ := ih a q
        refine ⟨p', hfold, Or.inr ?_⟩
        rcases hcase with ⟨hp, hv⟩ | ⟨e, hel, hp, hv⟩
        · exact ⟨(a, q), by simp, hp, hv⟩
        · exact ⟨e, List.mem_cons_of_mem _ hel, hp, hv⟩
      · have hround : pyRound 2 (l.foldl (fun m e => max m e.1) (max w a))
            = pyRound 2 (l.foldl (fun m e => max m e.1) w) := by
          rw [foldl_max_comm, pyRound_max]
          have h1 : pyRound 2 a ≤ pyRound 2 w := by
            calc pyRound 2 a ≤ pyRound 2 (pyRound 2 w) := pyRound_mono 2 (not_lt.mp hgt)
              _ = pyRound 2 w := pyRound_idem 2 w
          have h2 : pyRound 2 w ≤ pyRound 2 (l.foldl (fun m e => max m e.1) w) :=
            pyRound_mono 2 (le_foldl_max l w)
          exact max_eq_left (le_trans h1 h2)
        have hstep : keep1 (some (pyRound 2 w, p)) (a, q) = some (pyRound 2 w, p) := by
          simp [keep1, hgt]
        rw [hstep, hround]
        obtain ⟨p', hfold, hcase⟩ := ih w p
        refine ⟨p', hfold, ?_⟩
        rcases hcase with ⟨hp, hv⟩ | ⟨e, hel, hp, hv⟩
        · exact Or.inl ⟨hp, hv⟩
        · exact Or.inr ⟨e, List.mem_cons_of_mem _ hel, hp, hv⟩

/-! Facts about the per-record projection and the stored values. -/

theorem itemEntry_apr_ge {μ : ℚ} {p : ℕ} {it : PyItem} {e : (ℚ × ℤ) × ℚ × String}
    (h : itemEntry μ p it = some e) : μ ≤ e.2.1 := by
  cases it with
  | notObj => simp [itemEntry] at h
  | obj apr? strk? dur? id? =>
      cases apr? with
      | none => simp [itemEntry] at h
      | some av =>
          cases hf : av.asFloat with
          | none => simp [itemEntry, hf] at h
          | some a0 =>
              by_cases hlt : a0 * 100 < μ
              · simp [itemEntry, hf, hlt] at h
              · cases hs : (strk?.getD pyZero).asFloat with
                | none => simp [itemEntry, hf, hlt, hs] at h
                | some s0 =>
                    cases hdv : (dur?.getD pyZero).asInt with
                    | none => simp [itemEntry, hf, hlt, hs, hdv] at h
                    | some d =>
                        cases id? with
                        | none =>
                            simp [itemEntry, hf, hlt, hs, hdv] at h
                            rw [← h]
                            exact not_lt.mp hlt
                        | some v =>
                            cases hia : v.asStr with
                            | none => simp [itemEntry, hf, hlt, hs, hdv, hia] at h
                            | some pid =>
                                simp [itemEntry, hf, hlt, hs, hdv, hia] at h
                                rw [← h]
                                exact not_lt.mp hlt

/-- Entries of the parsed record stream that hit one particular key, in
order, projected to the pair of unrounded apr and id. -/
def groupEntries (items : List PyItem) (μ : ℚ) (p : ℕ) (k : ℚ × ℤ) : List (ℚ × String) :=
  ((items.filterMap (itemEntry μ p)).filter (fun e => decide (e.1 = k))).map (fun e => e.2)

theorem mem_updateMp {st : NormState} {k : ℚ × ℤ} {a : ℚ} {pid : String}
    {kv : (ℚ × ℤ) × ℚ × String} (h : kv ∈ (updateMp st k a pid).mp) :
    kv = (k, (pyRound 2 a, pid)) ∨ kv ∈ st.mp := by
  unfold updateMp at h
  cases hl : lookupKey st.mp k with
  | none =>
      rw [hl] at h
      exact mem_insertKey h
  | some prev =>
      rw [hl] at h
      dsimp only at h
      split_ifs at h with hgt
      · exact mem_insertKey h
      · exact Or.inr h

theorem foldl_upd1_values (μ : ℚ) :
    ∀ (es : List ((ℚ × ℤ) × ℚ × String)) (st : NormState),
      (∀ e ∈ es, μ ≤ e.2.1) →
      (∀ kv ∈ st.mp, ∃ a, μ ≤ a ∧ kv.2.1 = pyRound 2 a) →
      ∀ kv ∈ (es.foldl upd1 st).mp, ∃ a, μ ≤ a ∧ kv.2.1 = pyRound 2 a := by
  intro es
  induction es with
  | nil => intro st _ hst; exact hst
  | cons e es ih =>
      intro st hes hst
      simp only [List.foldl_cons]
      refine ih _ (fun e' he' => hes e' (List.mem_cons_of_mem _ he')) ?_
      intro kv hkv
      rcases mem_updateMp hkv with h | h
      · exact ⟨e.2.1, hes e (by simp), by rw [h]⟩
      · exact hst kv h

theorem normState_mp_round (items : List PyItem) (μ : ℚ) (p : ℕ) :
    ∀ kv ∈ (normState items μ p).mp, ∃ a, μ ≤ a ∧ kv.2.1 = pyRound 2 a := by
  unfold normState
  rw [foldl_step_eq]
  refine foldl_upd1_values μ _ _ ?_ (by simp)
  intro e he
  obtain ⟨it, _, hit⟩ := List.mem_filterMap.mp he
  exact itemEntry_apr_ge hit

/-! Maxima of value lists. -/

theorem foldl_maxQ_mem (l : List ℚ) : ∀ x : ℚ, l.foldl max x = x ∨ l.foldl max x ∈ l := by
  induction l with
  | nil => intro x; exact Or.inl rfl
  | cons a l ih =>
      intro x
      simp only [List.foldl_cons]
      rcases ih (max x a) with h | h
      · rcases max_choice x a with hc | hc
        · exact Or.inl (by rw [h, hc])
        · exact Or.inr (by rw [h, hc]; simp)
      · exact Or.inr (List.mem_cons_of_mem _ h)

theorem le_foldl_maxQ_init (l : List ℚ) (x : ℚ) : x ≤ l.foldl max x := by
  induction l generalizing x with
  | nil => exact le_refl x
  | cons a l ih => exact le_trans (le_max_left x a) (ih _)

theorem le_foldl_maxQ_mem (l : List ℚ) : ∀ (x y : ℚ), y ∈ l → y ≤ l.foldl max x := by
  induction l with
  | nil => intro x y h; simp at h
  | cons a l ih =>
      intro x y h
      simp only [List.foldl_cons]
      rcases List.mem_cons.mp h with h | h
      · rw [h]
        exact le_trans (le_max_right x a) (le_foldl_maxQ_init l _)
      · exact ih _ y h

theorem listMaxD_mem {l : List ℚ} (h : l ≠ []) : listMaxD l ∈ l := by
  cases l with
  | nil => exact absurd rfl h
  | cons x xs =>
      rcases foldl_maxQ_mem xs x with h1 | h1
      · rw [listMaxD, h1]; simp
      · rw [listMaxD]; exact List.mem_cons_of_mem _ h1

theorem le_listMaxD {l : List ℚ} {x : ℚ} (h : x ∈ l) : x ≤ listMaxD l := by
  cases l with
  | nil => simp at h
  | cons y ys =>
      rcases List.mem_cons.mp h with h1 | h1
      · rw [h1, listMaxD]; exact le_foldl_maxQ_init ys y
      · rw [listMaxD]; exact le_foldl_maxQ_mem ys y x h1

/-! Claim theorems. -/

/-- C1, counterexample.  The claim states that a raw record missing the
strikePrice field contributes no cell, no strike and no duration to the
matrix.  On the code, dict.get supplies the default 0 for a missing
strikePrice, so a record with a numeric apr and duration but no
strikePrice is kept as a cell at strike 0: the claim fails at this
concrete input. -/
theorem C1_counterexample :
    normalize [PyItem.obj (some ⟨some 0.1, some 0, some "0.1"⟩) none
        (some ⟨some 7, some 7, some "7"⟩) (some ⟨none, none, some "a"⟩)] 0 [] 5 2
      = ⟨[0], [7], [((0, 7), (10, "a"))], 10⟩ := by
  norm_num [normalize, normState, step, itemEntry, updateMp, lookupKey, insertKey,
    insertSet, pyRound, roundHalfEven, pyZero, listMaxD, Option.getD, List.foldl,
    List.insertionSort, List.orderedInsert, Matrix.mk.injEq]

/-- C1, amended.  A raw record is silently skipped by normalize when
its apr key is missing, or when a present apr, strikePrice or duration
value is non-numeric, in the sense that the conversion applied by the
code raises; such a record contributes nothing to the loop state, and
the remaining records are unaffected.  A record that merely lacks the
strikePrice or duration key is not skipped: the missing field defaults
to 0 (see the counterexample). -/
theorem C1_skip_malformed (μ : ℚ) (p : ℕ) (st : NormState) (a s d i : Option PyVal)
    (h : a = none ∨ (∃ v, a = some v ∧ v.asFloat = none)
       ∨ (∃ v, s = some v ∧ v.asFloat = none)
       ∨ (∃ v, d = some v ∧ v.asInt = none)) :
    step μ p st (PyItem.obj a s d i) = st := by
  have hnone : itemEntry μ p (PyItem.obj a s d i) = none := by
    rcases h with rfl | ⟨v, rfl, hv⟩ | ⟨v, rfl, hv⟩ | ⟨v, rfl, hv⟩
    · rfl
    · simp [itemEntry, hv]
    · cases a with
      | none => rfl
      | some av =>
          cases hf : av.asFloat with
          | none => simp [itemEntry, hf]
          | some a0 =>
              by_cases hlt : a0 * 100 < μ
              · simp [itemEntry, hf, hlt]
              · simp [itemEntry, hf, hlt, hv]
    · cases a with
      | none => rfl
      | some av =>
          cases hf : av.asFloat with
          | none => simp [itemEntry, hf]
          | some a0 =>
              by_cases hlt : a0 * 100 < μ
              · simp [itemEntry, hf, hlt]
              · cases hs : (s.getD pyZero).asFloat with
                | none => simp [itemEntry, hf, hlt, hs]
                | some s0 => simp [itemEntry, hf, hlt, hs, hv]
  simp [step, hnone]

/-- C1, witness for the amended theorem at a concrete record whose apr
value is present but non-numeric. -/
theorem C1_skip_malformed_witness :
    (∃ v, (some (⟨none, some 0, some "z"⟩ : PyVal)) = some v ∧ v.asFloat = none) ∧
    step 0 2 ⟨[], [], []⟩
      (PyItem.obj (some ⟨none, some 0, some "z"⟩) none none none) = ⟨[], [], []⟩ :=
  ⟨⟨_, rfl, rfl⟩,
    C1_skip_malformed 0 2 ⟨[], [], []⟩ _ _ _ _ (Or.inr (Or.inl ⟨_, rfl, rfl⟩))⟩

/-- C2, counterexample.  The claim states that the kept cell of a
(strike, duration) group carries the id of the first product attaining
the maximum apr of the group.  On the code, a later product overwrites
the kept cell whenever its unrounded apr exceeds the stored rounded
value: with aprs 10.004 percent (id a, stored as 10.0) followed by
10.002 percent (id b), the comparison 10.002 > 10.0 succeeds, so the
kept id is b although the maximum 10.004 is attained only by a. -/
theorem C2_counterexample :
    normalize [PyItem.obj (some ⟨some 0.10004, none, none⟩) (some ⟨some 3000, none, none⟩)
        (some ⟨some 7, some 7, none⟩) (some ⟨none, none, some "a"⟩),
      PyItem.obj (some ⟨some 0.10002, none, none⟩) (some ⟨some 3000, none, none⟩)
        (some ⟨some 7, some 7, none⟩) (some ⟨none, none, some "b"⟩)] 0 [] 5 2
      = ⟨[3000], [7], [((3000, 7), (10, "b"))], 10⟩
    ∧ (0.10004 : ℚ) * 100 > (0.10002 : ℚ) * 100 := by
  constructor
  · norm_num [normalize, normState, step, itemEntry, updateMp, lookupKey, insertKey,
      insertSet, pyRound, roundHalfEven, pyZero, listMaxD, Option.getD, List.foldl,
      List.insertionSort, List.orderedInsert, Matrix.mk.injEq]
  · norm_num

/-- C2, amended.  For every key, the cell kept by the accumulation loop
of normalize stores the maximum unrounded apr of its group rounded to 2
decimals, and the id of some product of the group whose apr rounds to
that same value (not necessarily one attaining the unrounded maximum);
a later product whose apr equals the stored rounded value exactly never
overwrites the kept cell. -/
theorem C2_group_max :
    (∀ (items : List PyItem) (μ : ℚ) (p : ℕ) (k : ℚ × ℤ) (A : ℚ) (pid : String),
        lookupKey (normState items μ p).mp k = some (A, pid) →
          groupEntries items μ p k ≠ [] ∧
          A = pyRound 2 (listMaxD ((groupEntries items μ p k).map Prod.fst)) ∧
          (A, pid) ∈ (groupEntries items μ p k).map (fun e => (pyRound 2 e.1, e.2))) ∧
    (∀ (st : NormState) (k : ℚ × ℤ) (a : ℚ) (q pid : String),
        lookupKey st.mp k = some (a, q) → updateMp st k a pid = st) := by
  constructor
  · intro items μ p k A pid h
    have hfold : lookupKey (normState items μ p).mp k
        = (groupEntries items μ p k).foldl keep1 none := by
      unfold normState groupEntries
      rw [foldl_step_eq, foldl_upd1_lookup]
      rfl
    rw [hfold] at h
    cases hg : groupEntries items μ p k with
    | nil => rw [hg] at h; simp at h
    | cons e rest =>
        rw [hg] at h
        simp only [List.foldl_cons] at h
        have hk1 : keep1 none e = some (pyRound 2 e.1, e.2) := rfl
        rw [hk1] at h
        obtain ⟨p', hfold2, hcase⟩ := keep1_foldl_spec rest e.1 e.2
        rw [hfold2] at h
        have hA : pyRound 2 (rest.foldl (fun m e => max m e.1) e.1) = A :=
          congrArg Prod.fst (Option.some.inj h)
        have hp' : p' = pid := congrArg Prod.snd (Option.some.inj h)
        refine ⟨by simp, ?_, ?_⟩
        · rw [← hA]
          congr 1
          simp only [List.map_cons, listMaxD]
          exact (foldl_max_map rest e.1).symm
        · rcases hcase with ⟨hp, hv⟩ | ⟨e', hel, hp, hv⟩
          · have : (A, pid) = (pyRound 2 e.1, e.2) := by
              rw [← hA, ← hp', hv, hp]
            rw [this]
            simp
          · have : (A, pid) = (pyRound 2 e'.1, e'.2) := by
              rw [← hA, ← hp', hv, hp]
            rw [this]
            exact List.mem_map_of_mem _ (List.mem_cons_of_mem _ hel)
  · intro st k a q pid h
    unfold updateMp
    rw [h]
    dsimp only
    rw [if_neg (lt_irrefl a)]

/-- C2, witness for the amended theorem at a concrete two-product
group. -/
theorem C2_group_max_witness :
    lookupKey (normState [PyItem.obj (some ⟨some 0.1, none, none⟩)
        (some ⟨some 3000, none, none⟩) (some ⟨some 7, some 7, none⟩)
        (some ⟨none, none, some "a"⟩)] 0 2).mp (3000, 7) = some (10, "a") ∧
    (groupEntries [PyItem.obj (some ⟨some 0.1, none, none⟩)
        (some ⟨some 3000, none, none⟩) (some ⟨some 7, some 7, none⟩)
        (some ⟨none, none, some "a"⟩)] 0 2 (3000, 7) ≠ [] ∧
      (10 : ℚ) = pyRound 2 (listMaxD ((groupEntries [PyItem.obj (some ⟨some 0.1, none, none⟩)
        (some ⟨some 3000, none, none⟩) (some ⟨some 7, some 7, none⟩)
        (some ⟨none, none, some "a"⟩)] 0 2 (3000, 7)).map Prod.fst)) ∧
      ((10 : ℚ), "a") ∈ (groupEntries [PyItem.obj (some ⟨some 0.1, none, none⟩)
        (some ⟨some 3000, none, none⟩) (some ⟨some 7, some 7, none⟩)
        (some ⟨none, none, some "a"⟩)] 0 2 (3000, 7)).map (fun e => (pyRound 2 e.1, e.2))) :=
  ⟨by norm_num [normState, step, itemEntry, updateMp, lookupKey, insertKey,
      insertSet, pyRound, roundHalfEven, pyZero, Option.getD, List.foldl],
   C2_group_max.1 _ 0 2 (3000, 7) 10 "a"
     (by norm_num [normState, step, itemEntry, updateMp, lookupKey, insertKey,
        insertSet, pyRound, roundHalfEven, pyZero, Option.getD, List.foldl])⟩

/-- C3, counterexample.  The claim states that max_apr equals the
maximum apr among the cells retained in the final mapping, or 0 when
none is retained.  On the code, max_apr is computed over the grouping
dict before the strike axis is truncated: with max_strikes 1 the cell
at strike 50 with apr 20 is dropped from the final mapping, the only
retained cell has apr 5, yet max_apr is 20. -/
theorem C3_counterexample :
    normalize [PyItem.obj (some ⟨some 0.05, none, none⟩) (some ⟨some 100, none, none⟩)
        (some ⟨some 7, some 7, none⟩) (some ⟨none, none, some "a"⟩),
      PyItem.obj (some ⟨some 0.20, none, none⟩) (some ⟨some 50, none, none⟩)
        (some ⟨some 7, some 7, none⟩) (some ⟨none, none, some "b"⟩)] 0 [] 1 2
      = ⟨[100], [7], [((100, 7), (5, "a"))], 20⟩
    ∧ (20 : ℚ) ≠ 5 ∧ (20 : ℚ) ≠ 0 := by
  refine ⟨?_, by norm_num, by norm_num⟩
  norm_num [normalize, normState, step, itemEntry, updateMp, lookupKey, insertKey,
    insertSet, pyRound, roundHalfEven, pyZero, listMaxD, Option.getD, List.foldl,
    List.insertionSort, List.orderedInsert, Matrix.mk.injEq]

/-- C3, amended.  The max_apr field equals the maximum apr among all
cells of the grouping dict built by the loop, including cells later
dropped from the final mapping by strike truncation or duration
filtering, and equals 0 when the dict is empty. -/
theorem C3_max_apr (items : List PyItem) (μ : ℚ) (ds : List ℤ) (ms p : ℕ) :
    (normalize items μ ds ms p).max_apr
        = listMaxD ((normState items μ p).mp.map (fun kv => kv.2.1)) ∧
    ((normState items μ p).mp = [] → (normalize items μ ds ms p).max_apr = 0) ∧
    ((normState items μ p).mp ≠ [] →
      (normalize items μ ds ms p).max_apr ∈ (normState items μ p).mp.map (fun kv => kv.2.1) ∧
      ∀ v ∈ (normState items μ p).mp.map (fun kv => kv.2.1),
        v ≤ (normalize items μ ds ms p).max_apr) := by
  refine ⟨rfl, ?_, ?_⟩
  · intro h
    show listMaxD ((normState items μ p).mp.map (fun kv => kv.2.1)) = 0
    rw [h]
    rfl
  · intro h
    have hne : (normState items μ p).mp.map (fun kv => kv.2.1) ≠ [] := by
      simpa using h
    exact ⟨listMaxD_mem hne, fun v hv => le_listMaxD hv⟩

/-- C3, witness for the amended theorem at the empty input. -/
theorem C3_max_apr_witness :
    (normState [] (0 : ℚ) 2).mp = [] ∧ (normalize [] 0 [] 5 2).max_apr = 0 :=
  ⟨rfl, (C3_max_apr [] 0 [] 5 2).2.1 rfl⟩

/-- C4, counterexample.  The claim states that every cell stored in
the matrix has apr at least the configured threshold.  On the code,
the threshold is checked against the unrounded apr while the stored
value is rounded to 2 decimals: with threshold 10.004 percent and a
product apr of 10.0041 percent, the product passes the filter but the
stored value 10.0 lies below the threshold. -/
theorem C4_counterexample :
    normalize [PyItem.obj (some ⟨some 0.100041, none, none⟩) (some ⟨some 3000, none, none⟩)
        (some ⟨some 7, some 7, none⟩) (some ⟨none, none, some "a"⟩)] 10.004 [] 5 2
      = ⟨[3000], [7], [((3000, 7), (10, "a"))], 10⟩
    ∧ (10 : ℚ) < 10.004 := by
  constructor
  · norm_num [normalize, normState, step, itemEntry, updateMp, lookupKey, insertKey,
      insertSet, pyRound, roundHalfEven, pyZero, listMaxD, Option.getD, List.foldl,
      List.insertionSort, List.orderedInsert, Matrix.mk.injEq]
  · norm_num

/-- C4, amended.  Every cell of the returned matrix stores the value
pyRound 2 a of some unrounded apr percentage a that passed the filter,
so a is at least the threshold and the stored value is at least the
threshold minus 0.005; the stored rounded value itself can fall below
the threshold (see the counterexample). -/
theorem C4_min_apr (items : List PyItem) (μ : ℚ) (ds : List ℤ) (ms p : ℕ)
    (kv : (ℚ × ℤ) × ℚ × String) (h : kv ∈ (normalize items μ ds ms p).cells) :
    (∃ a, μ ≤ a ∧ kv.2.1 = pyRound 2 a) ∧ μ - 1/200 ≤ kv.2.1 := by
  have hmp : kv ∈ (normState items μ p).mp := by
    have hc : kv ∈ (normState items μ p).mp.filter
        (fun kv => decide (kv.1.1 ∈ (normalize items μ ds ms p).strikes)
          && decide (kv.1.2 ∈ (normalize items μ ds ms p).days)) := h
    exact (List.mem_filter.mp hc).1
  obtain ⟨a, ha, hval⟩ := normState_mp_round items μ p kv hmp
  refine ⟨⟨a, ha, hval⟩, ?_⟩
  rw [hval]
  calc μ - 1/200 ≤ a - 1/200 := by linarith
    _ ≤ pyRound 2 a := pyRound_two_ge a

/-- C5: the duration axis of the returned matrix is sorted ascending;
when the caller supplies no allow-list it consists exactly of the
durations observed among kept cells, and when the caller supplies a
non-empty duplicate-free allow-list it consists exactly of the
intersection of that allow-list with the observed durations. -/
theorem C5_duration_axis (items : List PyItem) (μ : ℚ) (ds : List ℤ) (ms p : ℕ) :
    (normalize items μ ds ms p).days.Sorted (· ≤ ·) ∧
    (ds = [] → (normalize items μ ds ms p).days.Nodup ∧
      ∀ d, d ∈ (normalize items μ ds ms p).days
        ↔ d ∈ (normState items μ p).mp.map (fun kv => kv.1.2)) ∧
    (ds ≠ [] → ds.Nodup →
      (normalize items μ ds ms p).days.Nodup ∧
      ∀ d, d ∈ (normalize items μ ds ms p).days
        ↔ d ∈ ds ∧ d ∈ (normState items μ p).mp.map (fun kv => kv.1.2)) := by
  obtain ⟨_, hdays_iff, _, hdays_nodup, _⟩ := goodState_normState items μ p
  refine ⟨?_, ?_, ?_⟩
  · simp only [normalize]
    exact List.sorted_insertionSort _ _
  · rintro rfl
    have hdays : (normalize items μ [] ms p).days
        = List.insertionSort (· ≤ ·)
            (List.insertionSort (· ≤ ·) (normState items μ p).days_set) := by
      simp [normalize, List.filter_true]
    constructor
    · rw [hdays]
      refine (List.perm_insertionSort _ _).nodup_iff.mpr ?_
      exact (List.perm_insertionSort _ _).nodup_iff.mpr hdays_nodup
    · intro d
      rw [hdays, List.mem_insertionSort, List.mem_insertionSort]
      exact hdays_iff d
  · intro hne hnd
    obtain ⟨x, t, rfl⟩ := List.exists_cons_of_ne_nil hne
    have hdays : (normalize items μ (x :: t) ms p).days
        = List.insertionSort (· ≤ ·)
            ((x :: t).filter (fun d => decide (d ∈ (normState items μ p).days_set))) := by
      simp [normalize, List.isEmpty]
    constructor
    · rw [hdays]
      exact (List.perm_insertionSort _ _).nodup_iff.mpr (hnd.filter _)
    · intro d
      rw [hdays, List.mem_insertionSort, List.mem_filter]
      constructor
      · rintro ⟨h1, h2⟩
        exact ⟨h1, (hdays_iff d).mp (by simpa using h2)⟩
      · rintro ⟨h1, h2⟩
        exact ⟨h1, by simpa using (hdays_iff d).mpr h2⟩

/-- C5, witness at a one-product input with the allow-list [3, 7]. -/
theorem C5_duration_axis_witness :
    (([3, 7] : List ℤ) ≠ [] ∧ ([3, 7] : List ℤ).Nodup) ∧
    ((normalize [PyItem.obj (some ⟨some 0.1, none, none⟩) (some ⟨some 3000, none, none⟩)
        (some ⟨some 7, some 7, none⟩) (some ⟨none, none, some "a"⟩)] 0 [3, 7] 5 2).days.Nodup ∧
      ∀ d, d ∈ (normalize [PyItem.obj (some ⟨some 0.1, none, none⟩)
          (some ⟨some 3000, none, none⟩) (some ⟨some 7, some 7, none⟩)
          (some ⟨none, none, some "a"⟩)] 0 [3, 7] 5 2).days
        ↔ d ∈ ([3, 7] : List ℤ)
          ∧ d ∈ (normState [PyItem.obj (some ⟨some 0.1, none, none⟩)
              (some ⟨some 3000, none, none⟩) (some ⟨some 7, some 7, none⟩)
              (some ⟨none, none, some "a"⟩)] 0 2).mp.map (fun kv => kv.1.2)) :=
  ⟨⟨by simp, by simp⟩,
   (C5_duration_axis [PyItem.obj (some ⟨some 0.1, none, none⟩)
      (some ⟨some 3000, none, none⟩) (some ⟨some 7, some 7, none⟩)
      (some ⟨none, none, some "a"⟩)] 0 [3, 7] 5 2).2.2 (by simp) (by simp)⟩

/-- C6: the strike axis of the returned matrix is strictly descending,
consists of strikes observed among kept cells, has length equal to the
distinct observed strike count capped at max_strikes, and the observed
strikes it omits are smaller than every strike it retains. -/
theorem C6_strike_axis (items : List PyItem) (μ : ℚ) (ds : List ℤ) (ms p : ℕ) :
    (normalize items μ ds ms p).strikes.Sorted (· > ·) ∧
    (normalize items μ ds ms p).strikes.length
        = min ms (normState items μ p).strikes_set.length ∧
    (normState items μ p).strikes_set.Nodup ∧
    (∀ s, s ∈ (normState items μ p).strikes_set
      ↔ s ∈ (normState items μ p).mp.map (fun kv => kv.1.1)) ∧
    (∀ s ∈ (normalize items μ ds ms p).strikes,
      s ∈ (normState items μ p).mp.map (fun kv => kv.1.1)) ∧
    (∀ s, s ∈ (normState items μ p).mp.map (fun kv => kv.1.1) →
      s ∉ (normalize items μ ds ms p).strikes →
      ∀ s' ∈ (normalize items μ ds ms p).strikes, s < s') := by
  obtain ⟨hstrk_iff, _, hstrk_nodup, _, _⟩ := goodState_normState items μ p
  have hstrikes : (normalize items μ ds ms p).strikes
      = ((List.insertionSort (· ≤ ·) (normState items μ p).strikes_set).reverse).take ms := by
    simp [normalize]
  have hasc : (List.insertionSort (· ≤ ·) (normState items μ p).strikes_set).Sorted (· < ·) := by
    refine (List.sorted_insertionSort _ _).lt_of_le ?_
    exact (List.perm_insertionSort _ _).nodup_iff.mpr hstrk_nodup
  have hdesc : ((List.insertionSort (· ≤ ·) (normState items μ p).strikes_set).reverse).Sorted
      (· > ·) := List.pairwise_reverse.mpr hasc
  refine ⟨?_, ?_, hstrk_nodup, hstrk_iff, ?_, ?_⟩
  · rw [hstrikes]
    exact hdesc.sublist (List.take_sublist _ _)
  · rw [hstrikes]
    simp [List.length_take]
  · intro s hs
    rw [hstrikes] at hs
    have : s ∈ (normState items μ p).strikes_set := by
      have h1 := (List.take_sublist ms _).mem hs
      rw [List.mem_reverse, List.mem_insertionSort] at h1
      exact h1
    exact (hstrk_iff s).mp this
  · intro s hs hns s' hs'
    rw [hstrikes] at hns hs'
    have hsdesc : s ∈ (List.insertionSort (· ≤ ·) (normState items μ p).strikes_set).reverse := by
      rw [List.mem_reverse, List.mem_insertionSort]
      exact (hstrk_iff s).mpr hs
    have hsplit := List.take_append_drop ms
      ((List.insertionSort (· ≤ ·) (normState items μ p).strikes_set).reverse)
    have hpw := hdesc
    rw [← hsplit] at hpw hsdesc
    have hdrop : s ∈ ((List.insertionSort (· ≤ ·)
        (normState items μ p).strikes_set).reverse).drop ms := by
      rcases List.mem_append.mp hsdesc with h | h
      · exact absurd h hns
      · exact h
    exact (List.pairwise_append.mp hpw).2.2 s' hs' s hdrop

/-- C6, witness at a two-product input truncated to one strike. -/
theorem C6_strike_axis_witness :
    ((100 : ℚ) ∈ (normState [PyItem.obj (some ⟨some 0.05, none, none⟩)
        (some ⟨some 100, none, none⟩) (some ⟨some 7, some 7, none⟩)
        (some ⟨none, none, some "a"⟩),
      PyItem.obj (some ⟨some 0.20, none, none⟩) (some ⟨some 50, none, none⟩)
        (some ⟨some 7, some 7, none⟩) (some ⟨none, none, some "b"⟩)] 0 2).mp.map
        (fun kv => kv.1.1)) ∧
    ((50 : ℚ) ∈ (normState [PyItem.obj (some ⟨some 0.05, none, none⟩)
        (some ⟨some 100, none, none⟩) (some ⟨some 7, some 7, none⟩)
        (some ⟨none, none, some "a"⟩),
      PyItem.obj (some ⟨some 0.20, none, none⟩) (some ⟨some 50, none, none⟩)
        (some ⟨some 7, some 7, none⟩) (some ⟨none, none, some "b"⟩)] 0 2).mp.map
        (fun kv => kv.1.1)) ∧
    (50 : ℚ) ∉ (normalize [PyItem.obj (some ⟨some 0.05, none, none⟩)
        (some ⟨some 100, none, none⟩) (some ⟨some 7, some 7, none⟩)
        (some ⟨none, none, some "a"⟩),
      PyItem.obj (some ⟨some 0.20, none, none⟩) (some ⟨some 50, none, none⟩)
        (some ⟨some 7, some 7, none⟩) (some ⟨none, none, some "b"⟩)] 0 [] 1 2).strikes ∧
    ∀ s' ∈ (normalize [PyItem.obj (some ⟨some 0.05, none, none⟩)
        (some ⟨some 100, none, none⟩) (some ⟨some 7, some 7, none⟩)
        (some ⟨none, none, some "a"⟩),
      PyItem.obj (some ⟨some 0.20, none, none⟩) (some ⟨some 50, none, none⟩)
        (some ⟨some 7, some 7, none⟩) (some ⟨none, none, some "b"⟩)] 0 [] 1 2).strikes,
      (50 : ℚ) < s' := by
  refine ⟨?_, ?_, ?_, ?_⟩
  · norm_num [normState, step, itemEntry, updateMp, lookupKey, insertKey,
      insertSet, pyRound, roundHalfEven, pyZero, Option.getD, List.foldl]
  · norm_num [normState, step, itemEntry, updateMp, lookupKey, insertKey,
      insertSet, pyRound, roundHalfEven, pyZero, Option.getD, List.foldl]
  · norm_num [normalize, normState, step, itemEntry, updateMp, lookupKey, insertKey,
      insertSet, pyRound, roundHalfEven, pyZero, listMaxD, Option.getD, List.foldl,
      List.insertionSort, List.orderedInsert]
  · exact (C6_strike_axis [PyItem.obj (some ⟨some 0.05, none, none⟩)
      (some ⟨some 100, none, none⟩) (some ⟨some 7, some 7, none⟩)
      (some ⟨none, none, some "a"⟩),
      PyItem.obj (some ⟨some 0.20, none, none⟩) (some ⟨some 50, none, none⟩)
        (some ⟨some 7, some 7, none⟩) (some ⟨none, none, some "b"⟩)] 0 [] 1 2).2.2.2.2.2 50
      (by norm_num [normState, step, itemEntry, updateMp, lookupKey, insertKey,
        insertSet, pyRound, roundHalfEven, pyZero, Option.getD, List.foldl])
      (by norm_num [normalize, normState, step, itemEntry, updateMp, lookupKey, insertKey,
        insertSet, pyRound, roundHalfEven, pyZero, listMaxD, Option.getD, List.foldl,
        List.insertionSort, List.orderedInsert])

/-- C7: when the first hosts of the list all answer with status 451 or
a body containing a restricted-location marker and the next host
answers with a 2xx status and a marker-free body, the rotator returns
the base, status and body of that host, and the trace of issued
requests stops at it: no later host is contacted. -/
theorem C7_rotator (net : String → ℤ × String) (path : String)
    (front : List String) (good : String) (rest : List String)
    (hfront : ∀ b ∈ front, (net (b ++ path)).1 = 451
        ∨ strContains (net (b ++ path)).2 "Eligibility" = true
        ∨ strContains (net (b ++ path)).2 "restricted location" = true)
    (h200 : 200 ≤ (net (good ++ path)).1) (h300 : (net (good ++ path)).1 < 300)
    (hm1 : strContains (net (good ++ path)).2 "Eligibility" = false)
    (hm2 : strContains (net (good ++ path)).2 "restricted location" = false) :
    ∀ last, http_get_any net path (front ++ good :: rest) last
      = (.ok (good, (net (good ++ path)).1, (net (good ++ path)).2), front ++ [good]) := by
  have haccept : acceptResp (net (good ++ path)).1 (net (good ++ path)).2 = true := by
    have hne : (net (good ++ path)).1 ≠ 451 := by omega
    simp [acceptResp, hne, hm1, hm2, h200, h300]
  have hrej : ∀ b ∈ front, acceptResp (net (b ++ path)).1 (net (b ++ path)).2 = false := by
    intro b hb
    rcases hfront b hb with h | h | h
    · simp [acceptResp, h]
    · simp [acceptResp, h]
    · simp [acceptResp, h]
  clear hfront
  induction front with
  | nil =>
      intro last
      simp [http_get_any, haccept]
  | cons b front ih =>
      intro last
      have hb := hrej b (by simp)
      simp only [List.cons_append, http_get_any, hb, Bool.false_eq_true, if_false,
        List.append_eq]
      rw [ih (fun x hx => hrej x (by simp [hx]))]

/-- C7, witness with two hosts: the first is rejected with status 451,
the second accepted with status 200. -/
theorem C7_rotator_witness :
    (∀ b ∈ ["h1"], ((fun u => if u = "h1/t" then ((451 : ℤ), "no") else ((200 : ℤ), "ok")) (b ++ "/t")).1 = 451
        ∨ strContains ((fun u => if u = "h1/t" then ((451 : ℤ), "no") else ((200 : ℤ), "ok")) (b ++ "/t")).2 "Eligibility" = true
        ∨ strContains ((fun u => if u = "h1/t" then ((451 : ℤ), "no") else ((200 : ℤ), "ok")) (b ++ "/t")).2 "restricted location" = true) ∧
    http_get_any (fun u => if u = "h1/t" then ((451 : ℤ), "no") else ((200 : ℤ), "ok"))
        "/t" (["h1"] ++ "h2" :: ["h3"]) none
      = (.ok ("h2", 200, "ok"), ["h1"] ++ ["h2"]) := by
  refine ⟨by decide, ?_⟩
  exact C7_rotator (fun u => if u = "h1/t" then ((451 : ℤ), "no") else ((200 : ℤ), "ok"))
    "/t" ["h1"] "h2" ["h3"] (by decide) (by decide) (by decide) (by decide) (by decide) none

/-- C8: when every host of a non-empty list is rejected, the rotator
raises an error carrying exactly the failure line of the last attempted
host (its base, status and truncated body), after having attempted all
hosts in order. -/
theorem C8_exhaustion (net : String → ℤ × String) (path : String)
    (front : List String) (lastBase : String)
    (hrej : ∀ b ∈ front ++ [lastBase],
      acceptResp (net (b ++ path)).1 (net (b ++ path)).2 = false) :
    ∀ last, http_get_any net path (front ++ [lastBase]) last
      = (.error (failLine lastBase (net (lastBase ++ path)).1 (net (lastBase ++ path)).2),
         front ++ [lastBase]) := by
  revert hrej
  induction front with
  | nil =>
      intro hrej last
      have hb := hrej lastBase (by simp)
      simp [http_get_any, hb]
  | cons b front ih =>
      intro hrej last
      have hb := hrej b (by simp)
      simp only [List.cons_append, http_get_any, hb, Bool.false_eq_true, if_false,
        List.append_eq]
      rw [ih (fun x hx => hrej x (by simp at hx ⊢; tauto))]

/-- C8, witness with two hosts both answering 451. -/
theorem C8_exhaustion_witness :
    (∀ b ∈ ["h1"] ++ ["h2"],
      acceptResp ((fun _ => ((451 : ℤ), "blocked")) (b ++ "/t")).1
        ((fun _ => ((451 : ℤ), "blocked")) (b ++ "/t")).2 = false) ∧
    http_get_any (fun _ => ((451 : ℤ), "blocked")) "/t" (["h1"] ++ ["h2"]) none
      = (.error (failLine "h2" 451 "blocked"), ["h1"] ++ ["h2"]) :=
  ⟨by decide,
   C8_exhaustion (fun _ => ((451 : ℤ), "blocked")) "/t" ["h1"] "h2" (by decide) none⟩

/-- Specification of the page loop: every issued request carries the
shared timestamp and the fixed page size, the page indices run from the
start index upward, the accumulated items are the concatenation of the
fetched pages, every page before the last is full, and a stop before
the cap means the last page was short. -/
theorem fetchPages_spec {α : Type} (pageNet : PageReq → ℤ × List α)
    (ot ex inv : String) (ts : ℤ) :
    ∀ (n idx : ℕ) (items : List α) (reqs : List PageReq),
      fetchPages pageNet ot ex inv ts n idx = .ok (items, reqs) →
      (∀ r ∈ reqs, r.timestamp = ts ∧ r.pageSize = 100 ∧ r.optionType = ot
        ∧ r.exercisedCoin = ex ∧ r.investCoin = inv ∧ r.recvWindow = 60000) ∧
      reqs.map (fun r => r.pageIndex) = List.range' idx reqs.length ∧
      reqs.length ≤ n ∧
      items = (reqs.map (fun r => (pageNet r).2)).flatten ∧
      (∀ r ∈ reqs.dropLast, 100 ≤ ((pageNet r).2).length) ∧
      (reqs.length < n → ∃ hne : reqs ≠ [],
        ((pageNet (reqs.getLast hne)).2).length < 100) := by
  intro n
  induction n with
  | zero =>
      intro idx items reqs h
      simp only [fetchPages, Except.ok.injEq, Prod.mk.injEq] at h
      obtain ⟨hi, hr⟩ := h
      subst hi; subst hr
      refine ⟨by simp, rfl, le_refl 0, rfl, by simp, by omega⟩
  | succ n ih =>
      intro idx items reqs h
      by_cases hcode : (pageNet ⟨ot, ex, inv, 100, idx, ts, 60000⟩).1 ≠ 200
      · unfold fetchPages at h
        rw [if_pos hcode] at h
        exact Except.noConfusion h
      · by_cases hshort : ((pageNet ⟨ot, ex, inv, 100, idx, ts, 60000⟩).2).length < 100
        · simp only [fetchPages, hcode, if_false, hshort, if_true,
            Except.ok.injEq, Prod.mk.injEq] at h
          obtain ⟨hi, hr⟩ := h
          subst hi; subst hr
          refine ⟨?_, ?_, ?_, ?_, ?_, ?_⟩
          · intro r hr
            rcases (by simpa using hr : r = (⟨ot, ex, inv, 100, idx, ts, 60000⟩ : PageReq))
              with rfl
            exact ⟨rfl, rfl, rfl, rfl, rfl, rfl⟩
          · simp [List.range']
          · simp
          · simp
          · simp
          · intro _
            exact ⟨by simp, by simpa using hshort⟩
        · cases hrec : fetchPages pageNet ot ex inv ts n (idx + 1) with
          | error e =>
              simp only [fetchPages, hcode, if_false, hshort, if_true, hrec] at h
              exact Except.noConfusion h
          | ok pr =>
              obtain ⟨out, reqs2⟩ := pr
              simp only [fetchPages, hcode, if_false, hshort, if_true, hrec,
                Except.ok.injEq, Prod.mk.injEq] at h
              obtain ⟨hi, hr⟩ := h
              subst hi; subst hr
              obtain ⟨ihf, ihidx, ihlen, ihjoin, ihfull, ihlast⟩ := ih (idx + 1) out reqs2 hrec
              refine ⟨?_, ?_, ?_, ?_, ?_, ?_⟩
              · intro r hr
                rcases List.mem_cons.mp hr with rfl | hr2
                · exact ⟨rfl, rfl, rfl, rfl, rfl, rfl⟩
                · exact ihf r hr2
              · simp only [List.map_cons, List.length_cons, List.range'_succ, ihidx]
              · simpa using Nat.succ_le_succ ihlen
              · simp [ihjoin]
              · intro r hr
                cases hq : reqs2 with
                | nil => rw [hq] at hr; simp at hr
                | cons q qs =>
                    rw [hq] at hr
                    rw [List.dropLast_cons₂] at hr
                    rcases List.mem_cons.mp hr with rfl | hr2
                    · simpa using not_lt.mp hshort
                    · rw [hq] at ihfull
                      exact ihfull r hr2
              · intro hlt
                have hlt2 : reqs2.length < n := by simpa using hlt
                obtain ⟨hne2, hshort2⟩ := ihlast hlt2
                refine ⟨by simp, ?_⟩
                rw [List.getLast_cons hne2]
                exact hshort2

/-- C9: a successful direct fetch with a 200 time response uses the
single server timestamp in the signed parameters of every page request,
issues page indices 1, 2, ... up to the page cap, stops early the first
time a page yields fewer than 100 items, and returns the concatenation
of all fetched pages. -/
theorem C9_fetcher {α : Type} (pageNet : PageReq → ℤ × List α)
    (ot ex inv : String) (ts : ℤ) (pages : ℕ) (items : List α) (reqs : List PageReq)
    (h : fetch_products_all_direct (200, ts) pageNet ot ex inv pages = .ok (items, reqs)) :
    (∀ r ∈ reqs, r.timestamp = ts ∧ r.pageSize = 100 ∧ r.optionType = ot
      ∧ r.exercisedCoin = ex ∧ r.investCoin = inv ∧ r.recvWindow = 60000) ∧
    reqs.map (fun r => r.pageIndex) = List.range' 1 reqs.length ∧
    reqs.length ≤ pages ∧
    items = (reqs.map (fun r => (pageNet r).2)).flatten ∧
    (∀ r ∈ reqs.dropLast, 100 ≤ ((pageNet r).2).length) ∧
    (reqs.length < pages → ∃ hne : reqs ≠ [],
      ((pageNet (reqs.getLast hne)).2).length < 100) := by
  have h2 : fetchPages pageNet ot ex inv ts pages 1 = .ok (items, reqs) := by
    simpa [fetch_products_all_direct] using h
  exact fetchPages_spec pageNet ot ex inv ts pages 1 items reqs h2

/-- C9, witness with an oracle returning a short first page, so one
request is issued and its items are returned. -/
theorem C9_fetcher_witness :
    fetch_products_all_direct ((200 : ℤ), (5 : ℤ))
        (fun _ => ((200 : ℤ), [(0 : ℕ)])) "PUT" "ETH" "USDT" 3
      = .ok ([(0 : ℕ)], [⟨"PUT", "ETH", "USDT", 100, 1, 5, 60000⟩]) ∧
    (∀ r ∈ [(⟨"PUT", "ETH", "USDT", 100, 1, 5, 60000⟩ : PageReq)], r.timestamp = 5
      ∧ r.pageSize = 100 ∧ r.optionType = "PUT" ∧ r.exercisedCoin = "ETH"
      ∧ r.investCoin = "USDT" ∧ r.recvWindow = 60000) ∧
    ([(⟨"PUT", "ETH", "USDT", 100, 1, 5, 60000⟩ : PageReq)].map (fun r => r.pageIndex)
      = List.range' 1 1) :=
  ⟨rfl,
   ((C9_fetcher (fun _ => ((200 : ℤ), [(0 : ℕ)])) "PUT" "ETH" "USDT" 5 3
      [(0 : ℕ)] [⟨"PUT", "ETH", "USDT", 100, 1, 5, 60000⟩] rfl).1),
   ((C9_fetcher (fun _ => ((200 : ℤ), [(0 : ℕ)])) "PUT" "ETH" "USDT" 5 3
      [(0 : ℕ)] [⟨"PUT", "ETH", "USDT", 100, 1, 5, 60000⟩] rfl).2.1)⟩

/-- C10: normalize is total at its interface: it always returns the
four-field matrix structure, and a record whose per-record processing
fails anywhere in the try block, a non-mapping record included, is
skipped while every other record is processed exactly as if the failing
record were absent. -/
theorem C10_total (μ : ℚ) (ds : List ℤ) (ms p : ℕ) (l1 l2 : List PyItem) (it : PyItem)
    (h : itemEntry μ p it = none) :
    normalize (l1 ++ it :: l2) μ ds ms p = normalize (l1 ++ l2) μ ds ms p ∧
    itemEntry μ p PyItem.notObj = none := by
  refine ⟨?_, rfl⟩
  have hstate : normState (l1 ++ it :: l2) μ p = normState (l1 ++ l2) μ p := by
    unfold normState
    rw [List.foldl_append, List.foldl_append, List.foldl_cons]
    have hskip : step μ p (l1.foldl (step μ p) ⟨[], [], []⟩) it
        = l1.foldl (step μ p) ⟨[], [], []⟩ := by
      simp [step, h]
    rw [hskip]
  unfold normalize
  rw [hstate]

/-- C10, witness inserting a non-mapping record between two well-formed
records. -/
theorem C10_total_witness :
    itemEntry 0 2 PyItem.notObj = none ∧
    (normalize ([PyItem.obj (some ⟨some 0.1, none, none⟩) (some ⟨some 3000, none, none⟩)
          (some ⟨some 7, some 7, none⟩) (some ⟨none, none, some "a"⟩)]
        ++ PyItem.notObj :: [PyItem.obj (some ⟨some 0.2, none, none⟩)
          (some ⟨some 2800, none, none⟩) (some ⟨some 3, some 3, none⟩)
          (some ⟨none, none, some "b"⟩)]) 0 [] 5 2
      = normalize ([PyItem.obj (some ⟨some 0.1, none, none⟩) (some ⟨some 3000, none, none⟩)
          (some ⟨some 7, some 7, none⟩) (some ⟨none, none, some "a"⟩)]
        ++ [PyItem.obj (some ⟨some 0.2, none, none⟩) (some ⟨some 2800, none, none⟩)
          (some ⟨some 3, some 3, none⟩) (some ⟨none, none, some "b"⟩)]) 0 [] 5 2 ∧
      itemEntry 0 2 PyItem.notObj = none) :=
  ⟨rfl, C10_total 0 [] 5 2 _ _ PyItem.notObj rfl⟩

/-- C4, witness for the amended theorem at a concrete one-product
input. -/
theorem C4_min_apr_witness :
    ((3000, 7), ((10 : ℚ), "a")) ∈ (normalize [PyItem.obj (some ⟨some 0.1, none, none⟩)
        (some ⟨some 3000, none, none⟩) (some ⟨some 7, some 7, none⟩)
        (some ⟨none, none, some "a"⟩)] 0 [] 5 2).cells ∧
    ((∃ a, (0 : ℚ) ≤ a ∧ (((3000 : ℚ), (7 : ℤ)), ((10 : ℚ), "a")).2.1 = pyRound 2 a) ∧
      (0 : ℚ) - 1/200 ≤ (((3000 : ℚ), (7 : ℤ)), ((10 : ℚ), "a")).2.1) :=
  ⟨by norm_num [normalize, normState, step, itemEntry, updateMp, lookupKey, insertKey,
      insertSet, pyRound, roundHalfEven, pyZero, listMaxD, Option.getD, List.foldl,
      List.insertionSort, List.orderedInsert],
   C4_min_apr [PyItem.obj (some ⟨some 0.1, none, none⟩)
        (some ⟨some 3000, none, none⟩) (some ⟨some 7, some 7, none⟩)
        (some ⟨none, none, some "a"⟩)] 0 [] 5 2 ((3000, 7), ((10 : ℚ), "a"))
     (by norm_num [normalize, normState, step, itemEntry, updateMp, lookupKey, insertKey,
        insertSet, pyRound, roundHalfEven, pyZero, listMaxD, Option.getD, List.foldl,
        List.insertionSort, List.orderedInsert])⟩

end App
